import Mathlib

/-!
# Verification of the generation-aware data resolution layer of poclidex

Shallow embedding of the core domain logic of the `poclidex` terminal
Pokedex (TypeScript) into Lean 4, together with theorems settling the
frozen specification claims.

Embedded modules:
* `src/constants/versionGroups.ts` — version-group → generation table;
* `src/services/searchService.ts` (GenerationService) — session generation;
* `src/constants/abilityChanges.ts` — historical ability override table;
* `src/utils/cache.ts` — the bounded LRU cache;
* `src/repositories/PokemonRepository.ts` (`getMoves`) — the move resolver;
* the generation-aware `transformPokemon` (types / abilities at a target
  generation) — this function is referenced by its caller
  (`PokemonRepository.getPokemonDetails`) and by the test-suite
  (`pokemonGeneration.test.ts`) but its three-argument source is not in the
  tree (only the two-argument, generation-unaware version is); it is
  modelled from the spec, see the doc comments on `transformTypes` and
  `transformAbilities`.

JavaScript `Map` objects (insertion-ordered, unique keys) are embedded as
association lists `List (K × V)`: `set` on an existing key updates the value
in place, `set` on a fresh key appends, `delete` removes the (single) entry,
and iteration order is list order — exactly the observable semantics of the
`Map`s used by the source.
-/

namespace Poclidex

/-! ## JavaScript `Map` model -/

section JsMap

variable {K V : Type} [DecidableEq K]

/-- `Map.prototype.has`: is there an entry for key `k`? -/
def jsMapHas (l : List (K × V)) (k : K) : Bool :=
  l.any (fun p => decide (p.1 = k))

/-- `Map.prototype.get`: value of the entry for `k`, if any. -/
def jsMapGet (l : List (K × V)) (k : K) : Option V :=
  (l.find? (fun p => decide (p.1 = k))).map (·.2)

/-- `Map.prototype.set`: update in place when the key exists (keeping its
position in iteration order), otherwise append at the end. -/
def jsMapSet (l : List (K × V)) (k : K) (v : V) : List (K × V) :=
  if l.any (fun p => decide (p.1 = k)) then
    l.map (fun p => if p.1 = k then (k, v) else p)
  else
    l ++ [(k, v)]

/-- `Map.prototype.delete`: remove the (unique) entry for `k`. -/
def jsMapDelete (l : List (K × V)) (k : K) : List (K × V) :=
  l.eraseP (fun p => decide (p.1 = k))

end JsMap

/-! ## `src/constants/versionGroups.ts` -/

/-- `VERSION_GROUP_TO_GENERATION` from `src/constants/versionGroups.ts`,
the static release-identifier → generation table. -/
def VERSION_GROUP_TO_GENERATION : List (String × Nat) :=
  [("red-blue", 1), ("yellow", 1),
   ("gold-silver", 2), ("crystal", 2),
   ("ruby-sapphire", 3), ("emerald", 3), ("firered-leafgreen", 3),
   ("colosseum", 3), ("xd", 3),
   ("diamond-pearl", 4), ("platinum", 4), ("heartgold-soulsilver", 4),
   ("black-white", 5), ("black-2-white-2", 5),
   ("x-y", 6), ("omega-ruby-alpha-sapphire", 6),
   ("sun-moon", 7), ("ultra-sun-ultra-moon", 7),
   ("lets-go-pikachu-lets-go-eevee", 7),
   ("sword-shield", 8), ("the-isle-of-armor", 8), ("the-crown-tundra", 8),
   ("brilliant-diamond-shining-pearl", 8), ("legends-arceus", 8),
   ("scarlet-violet", 9), ("the-teal-mask", 9), ("the-indigo-disk", 9)]

/-- `getGenerationFromVersionGroup`: generation of a version group,
defaulting to 9 (`?? 9`) for unknown identifiers. -/
def getGenerationFromVersionGroup (versionGroupName : String) : Nat :=
  (jsMapGet VERSION_GROUP_TO_GENERATION versionGroupName).getD 9

/-- `isVersionGroupInGeneration`: version group at or before `maxGeneration`. -/
def isVersionGroupInGeneration (versionGroupName : String) (maxGeneration : Nat) : Bool :=
  decide (getGenerationFromVersionGroup versionGroupName ≤ maxGeneration)

/-! ## `GenerationService` (second half of `src/services/searchService.ts`) -/

/-- The error thrown by `setSessionGeneration` for an out-of-range argument
(`Invalid generation: g. Must be between 1 and 9.`). -/
inductive GenError : Type
  | invalidGeneration : Int → GenError
deriving DecidableEq

/-- State of the `GenerationService` singleton: the session generation. -/
structure GenerationService : Type where
  sessionGeneration : Int
deriving DecidableEq

/-- The constructor: `this.sessionGeneration = 9` (default to Gen 9). -/
def GenerationService.new : GenerationService := ⟨9⟩

/-- `getSessionGeneration()`. -/
def GenerationService.getSessionGeneration (s : GenerationService) : Int :=
  s.sessionGeneration

/-- `setSessionGeneration(generation)`: throws `GenError` when
`generation < 1 || generation > 9`, otherwise stores the value.  The thrown
case is embedded as returning `.error` together with the unchanged state
(the `throw` happens before the assignment). -/
def GenerationService.setSessionGeneration (s : GenerationService) (generation : Int) :
    Except GenError Unit × GenerationService :=
  if generation < 1 ∨ generation > 9 then
    (.error (.invalidGeneration generation), s)
  else
    (.ok (), { sessionGeneration := generation })

/-- `getEffectiveGeneration(pokemonGeneration)`:
`Math.max(this.sessionGeneration, pokemonGeneration)`. -/
def GenerationService.getEffectiveGeneration (s : GenerationService)
    (pokemonGeneration : Int) : Int :=
  max s.sessionGeneration pokemonGeneration

/-! ## `src/constants/abilityChanges.ts` -/

/-- `AbilityChange` record. -/
structure AbilityChange : Type where
  pokemonId : Nat
  pokemonName : String
  form : Option String := none
  oldAbility : String
  newAbility : String
  /-- One of `"ability1"`, `"ability2"`, `"hidden"`. -/
  abilitySlot : String
  changeGeneration : Nat
  notes : Option String := none
deriving DecidableEq

/-- `POKEMON_ABILITY_CHANGES`: the full static override table. -/
def POKEMON_ABILITY_CHANGES : List AbilityChange :=
  [{ pokemonId := 550, pokemonName := "basculin", form := some "blue-striped",
     oldAbility := "reckless", newAbility := "rock-head",
     abilitySlot := "ability1", changeGeneration := 5,
     notes := some "Changed within Generation V (Black 2/White 2)" },
   { pokemonId := 145, pokemonName := "zapdos",
     oldAbility := "lightningrod", newAbility := "static",
     abilitySlot := "hidden", changeGeneration := 6,
     notes := some "Hidden ability was unobtainable in Gen 5" },
   { pokemonId := 543, pokemonName := "venipede",
     oldAbility := "quick-feet", newAbility := "speed-boost",
     abilitySlot := "hidden", changeGeneration := 6 },
   { pokemonId := 544, pokemonName := "whirlipede",
     oldAbility := "quick-feet", newAbility := "speed-boost",
     abilitySlot := "hidden", changeGeneration := 6 },
   { pokemonId := 545, pokemonName := "scolipede",
     oldAbility := "quick-feet", newAbility := "speed-boost",
     abilitySlot := "hidden", changeGeneration := 6,
     notes := some "Major competitive buff - Speed Boost is much stronger" },
   { pokemonId := 607, pokemonName := "litwick",
     oldAbility := "shadow-tag", newAbility := "infiltrator",
     abilitySlot := "hidden", changeGeneration := 6,
     notes := some "Hidden ability was unobtainable in Gen 5" },
   { pokemonId := 608, pokemonName := "lampent",
     oldAbility := "shadow-tag", newAbility := "infiltrator",
     abilitySlot := "hidden", changeGeneration := 6,
     notes := some "Hidden ability was unobtainable in Gen 5" },
   { pokemonId := 609, pokemonName := "chandelure",
     oldAbility := "shadow-tag", newAbility := "infiltrator",
     abilitySlot := "hidden", changeGeneration := 6,
     notes := some "Shadow Tag would have been extremely powerful; was unobtainable" },
   { pokemonId := 94, pokemonName := "gengar",
     oldAbility := "levitate", newAbility := "cursed-body",
     abilitySlot := "ability1", changeGeneration := 7,
     notes := some "Major nerf - lost Ground immunity, now vulnerable to Earthquake/Spikes" },
   { pokemonId := 243, pokemonName := "raikou",
     oldAbility := "volt-absorb", newAbility := "inner-focus",
     abilitySlot := "hidden", changeGeneration := 7,
     notes := some "Hidden ability was unobtainable in Gen 5-6" },
   { pokemonId := 244, pokemonName := "entei",
     oldAbility := "flash-fire", newAbility := "inner-focus",
     abilitySlot := "hidden", changeGeneration := 7,
     notes := some "Hidden ability was unobtainable in Gen 5-6" },
   { pokemonId := 245, pokemonName := "suicune",
     oldAbility := "water-absorb", newAbility := "inner-focus",
     abilitySlot := "hidden", changeGeneration := 7,
     notes := some "Hidden ability was unobtainable in Gen 5-6" },
   { pokemonId := 275, pokemonName := "shiftry",
     oldAbility := "early-bird", newAbility := "wind-rider",
     abilitySlot := "hidden", changeGeneration := 9,
     notes := some "Major buff - Wind Rider provides immunity and Attack boost" },
   { pokemonId := 393, pokemonName := "piplup",
     oldAbility := "defiant", newAbility := "competitive",
     abilitySlot := "hidden", changeGeneration := 9,
     notes := some "Changed to match special attacker role" },
   { pokemonId := 394, pokemonName := "prinplup",
     oldAbility := "defiant", newAbility := "competitive",
     abilitySlot := "hidden", changeGeneration := 9,
     notes := some "Changed to match special attacker role" },
   { pokemonId := 395, pokemonName := "empoleon",
     oldAbility := "defiant", newAbility := "competitive",
     abilitySlot := "hidden", changeGeneration := 9,
     notes := some "Major improvement - raises Sp.Atk instead of Attack" }]

/-- An ability entry as it arrives from the API side:
`{ name, isHidden, slot }`. -/
structure PokemonAbility : Type where
  name : String
  isHidden : Bool
  slot : Nat
deriving DecidableEq

/-- An ability entry of the display record: `{ name, isHidden }`. -/
structure DisplayAbility : Type where
  name : String
  isHidden : Bool
deriving DecidableEq

/-- `getHistoricalAbilities(pokemonId, pokemonName, generation)`: the
override records matching the Pokemon (by id or by name) whose change has
not yet happened at `generation`. -/
def getHistoricalAbilities (pokemonId : Nat) (pokemonName : String)
    (generation : Nat) : List AbilityChange :=
  POKEMON_ABILITY_CHANGES.filter (fun change =>
    (decide (change.pokemonId = pokemonId) || decide (change.pokemonName = pokemonName))
      && decide (generation < change.changeGeneration))

/-- `applyHistoricalAbilityChanges(pokemonId, pokemonName, currentAbilities,
generation)`: rewrite the current ability list through the reverse map
new-name → old-name built from the applicable overrides.  (The source tests
the looked-up value with `if (oldAbility)`; no old-ability string in the
table is empty, so this is presence of the key, i.e. the `some` case.) -/
def applyHistoricalAbilityChanges (pokemonId : Nat) (pokemonName : String)
    (currentAbilities : List PokemonAbility) (generation : Nat) :
    List DisplayAbility :=
  let historicalChanges := getHistoricalAbilities pokemonId pokemonName generation
  if historicalChanges.length = 0 then
    currentAbilities.map (fun a => { name := a.name, isHidden := a.isHidden })
  else
    let replacements : List (String × String) :=
      historicalChanges.foldl (fun m change => jsMapSet m change.newAbility change.oldAbility) []
    currentAbilities.map (fun ability =>
      match jsMapGet replacements ability.name with
      | some oldAbility => { name := oldAbility, isHidden := ability.isHidden }
      | none => { name := ability.name, isHidden := ability.isHidden })

/-! ## `src/utils/cache.ts` — the bounded LRU cache -/

/-- The `LRUCache<K, V>` object: its backing `Map` (association list in
insertion order) and the fixed `maxSize`. -/
structure LRUCache (K V : Type) : Type where
  cache : List (K × V)
  maxSize : Nat
deriving DecidableEq

variable {K V : Type} [DecidableEq K]

/-- The constructor `new LRUCache(maxSize)`: empty map. -/
def LRUCache.new (maxSize : Nat) : LRUCache K V := ⟨[], maxSize⟩

/-- `get(key)`: on a miss return `undefined`; on a hit delete and re-insert
the entry (promoting it to most-recently-used) and return the value.  The
source guards with `has` and then reads with `get!`; the two agree, so the
embedding matches directly on the looked-up value. -/
def LRUCache.get (c : LRUCache K V) (key : K) : Option V × LRUCache K V :=
  match jsMapGet c.cache key with
  | none => (none, c)
  | some value =>
    (some value, ⟨jsMapSet (jsMapDelete c.cache key) key value, c.maxSize⟩)

/-- `set(key, value)`: delete an existing entry for the key, append the new
entry, then drop the first (least-recently-used) entry when the size
exceeds `maxSize`. -/
def LRUCache.set (c : LRUCache K V) (key : K) (value : V) : LRUCache K V :=
  let afterDelete := if jsMapHas c.cache key then jsMapDelete c.cache key else c.cache
  let afterAdd := jsMapSet afterDelete key value
  if afterAdd.length > c.maxSize then
    match afterAdd.head? with
    | some firstEntry => ⟨jsMapDelete afterAdd firstEntry.1, c.maxSize⟩
    | none => ⟨afterAdd, c.maxSize⟩
  else
    ⟨afterAdd, c.maxSize⟩

/-- `has(key)`. -/
def LRUCache.has (c : LRUCache K V) (key : K) : Bool :=
  jsMapHas c.cache key

/-- `clear()`. -/
def LRUCache.clear (c : LRUCache K V) : LRUCache K V :=
  ⟨[], c.maxSize⟩

/-- `size` getter. -/
def LRUCache.size (c : LRUCache K V) : Nat :=
  c.cache.length

/-- One operation of the cache's public interface. -/
inductive CacheOp (K V : Type) : Type
  | get (key : K)
  | set (key : K) (value : V)
  | has (key : K)
  | clear

/-- State transition of one cache operation (`get` promotes, `has` reads
only, `clear` empties). -/
def LRUCache.step (c : LRUCache K V) (op : CacheOp K V) : LRUCache K V :=
  match op with
  | .get key => (c.get key).2
  | .set key value => c.set key value
  | .has _ => c
  | .clear => c.clear

/-- Run a finite sequence of cache operations. -/
def LRUCache.run (c : LRUCache K V) (ops : List (CacheOp K V)) : LRUCache K V :=
  ops.foldl LRUCache.step c

/-- Insert a list of key/value pairs in order with `set`. -/
def LRUCache.runSets (c : LRUCache K V) (ps : List (K × V)) : LRUCache K V :=
  ps.foldl (fun acc p => acc.set p.1 p.2) c

/-! ## Raw `Pokemon` record (the fields the embedded logic reads) -/

/-- One entry of `pokemon.types` / of a past-types override:
`{ slot, type: { name } }`. -/
structure TypeSlot : Type where
  slot : Nat
  typeName : String
deriving DecidableEq

/-- One entry of `pokemon.past_types`: the generation number (the epoch of
the override, e.g. 6 for `generation-vi`) and the full type list that
applied before it. -/
structure PastTypeEntry : Type where
  generation : Nat
  types : List TypeSlot
deriving DecidableEq

/-- One entry of `pokemonMove.version_group_details`:
`{ move_learn_method: { name }, version_group: { name }, level_learned_at }`. -/
structure VersionGroupDetail : Type where
  moveLearnMethod : String
  versionGroup : String
  levelLearnedAt : Nat
deriving DecidableEq

/-- One entry of `pokemon.moves`: `{ move: { name }, version_group_details }`. -/
structure PokemonMoveEntry : Type where
  moveName : String
  versionGroupDetails : List VersionGroupDetail
deriving DecidableEq

/-- A raw Pokemon record (the fields read by the generation logic; abilities
reuse `PokemonAbility` = `{ name, isHidden, slot }`). -/
structure Pokemon : Type where
  id : Nat
  name : String
  types : List TypeSlot
  pastTypes : List PastTypeEntry := []
  abilities : List PokemonAbility := []
  moves : List PokemonMoveEntry := []
deriving DecidableEq

/-! ## `PokemonRepository.getMoves` — the move resolver -/

/-- `mainMethods` from `getMoves`: the learn methods kept by the resolver. -/
def mainMethods : List String := ["level-up", "machine", "egg", "tutor"]

/-- The filter step of `getMoves` for one move: keep the per-release learn
records that use a main learn method and whose release maps to a generation
within the effective generation. -/
def survivingDetails (effectiveGeneration : Nat) (pokemonMove : PokemonMoveEntry) :
    List VersionGroupDetail :=
  pokemonMove.versionGroupDetails.filter (fun d =>
    mainMethods.contains d.moveLearnMethod
      && decide (getGenerationFromVersionGroup d.versionGroup ≤ effectiveGeneration))

/-- The `validDetails` computation of `getMoves` for one move: the filtered
learn records sorted by release generation, latest first.  JavaScript's
`Array.sort` is stable, so it is embedded as `List.mergeSort` with the
comparator's `≤ 0` relation. -/
def validDetails (effectiveGeneration : Nat) (pokemonMove : PokemonMoveEntry) :
    List VersionGroupDetail :=
  (survivingDetails effectiveGeneration pokemonMove).mergeSort
    (fun a b => decide (getGenerationFromVersionGroup b.versionGroup
        ≤ getGenerationFromVersionGroup a.versionGroup))

/-- The `{ method, level }` value stored in `moveMap`. -/
structure LearnInfo : Type where
  method : String
  level : Nat
deriving DecidableEq

/-- The `moveMap` loop of `getMoves`: for each move with a non-empty
`validDetails` list, record its first (latest valid) detail. -/
def buildMoveMap (pokemon : Pokemon) (effectiveGeneration : Nat) :
    List (String × LearnInfo) :=
  pokemon.moves.foldl (fun moveMap pokemonMove =>
    match (validDetails effectiveGeneration pokemonMove).head? with
    | some detail =>
      jsMapSet moveMap pokemonMove.moveName
        ⟨detail.moveLearnMethod, detail.levelLearnedAt⟩
    | none => moveMap) []

/-- An English effect entry of a fetched move. -/
structure EffectEntry : Type where
  language : String
  shortEffect : String
deriving DecidableEq

/-- A fetched `Move` record (the fields `getMoves` reads). -/
structure Move : Type where
  name : String
  typeName : String
  damageClass : String
  power : Option Int
  accuracy : Option Int
  pp : Nat
  effectEntries : List EffectEntry
deriving DecidableEq

/-- The `MoveData` display record built by `getMoves`. -/
structure MoveData : Type where
  name : String
  typeName : String
  category : String
  power : Option Int
  accuracy : Option Int
  pp : Nat
  learnMethod : String
  levelLearned : Option Nat
  description : String
deriving DecidableEq

/-- Build one `MoveData` from a fetched move plus its selected learn info
(`levelLearned` present only when the level is positive). -/
def toMoveData (move : Move) (learnInfo : LearnInfo) : MoveData :=
  { name := move.name,
    typeName := move.typeName,
    category := move.damageClass,
    power := move.power,
    accuracy := move.accuracy,
    pp := move.pp,
    learnMethod := learnInfo.method,
    levelLearned := if learnInfo.level > 0 then some learnInfo.level else none,
    description := ((move.effectEntries.find? (fun e => decide (e.language = "en"))).map
      (·.shortEffect)).getD "No description available." }

/-- The model of `String.prototype.localeCompare`: negative, zero or
positive according to lexicographic order. -/
def localeCompare (a b : String) : Int :=
  if a < b then -1 else if a = b then 0 else 1

/-- The `methodOrder` lookup of the final sort:
`{ machine: 0, egg: 1, tutor: 2 }`, defaulting to 99 (`?? 99`). -/
def methodOrderLookup (m : String) : Int :=
  if m = "machine" then 0
  else if m = "egg" then 1
  else if m = "tutor" then 2
  else 99

/-- The comparator of the final `moves.sort` of `getMoves`. -/
def moveCompare (a b : MoveData) : Int :=
  if a.learnMethod = "level-up" ∧ b.learnMethod = "level-up" then
    (a.levelLearned.getD 0 : Int) - (b.levelLearned.getD 0 : Int)
  else if a.learnMethod = "level-up" then -1
  else if b.learnMethod = "level-up" then 1
  else
    let aOrder := methodOrderLookup a.learnMethod
    let bOrder := methodOrderLookup b.learnMethod
    if aOrder ≠ bOrder then aOrder - bOrder
    else localeCompare a.name b.name

/-- The display ordering stated by the spec: level-up moves first in
ascending level order, then the remaining moves grouped machine before egg
before tutor (any other method after those), ties within a non-level-up
group broken alphabetically by move name. -/
def displayMethodRank (m : String) : Nat :=
  if m = "machine" then 0
  else if m = "egg" then 1
  else if m = "tutor" then 2
  else 3

/-- `displayMoveOrder a b`: `a` may come before `b` in the displayed move
list, per the spec's sort description. -/
def displayMoveOrder (a b : MoveData) : Prop :=
  (a.learnMethod = "level-up" ∧ b.learnMethod = "level-up"
    ∧ a.levelLearned.getD 0 ≤ b.levelLearned.getD 0)
  ∨ (a.learnMethod = "level-up" ∧ b.learnMethod ≠ "level-up")
  ∨ (a.learnMethod ≠ "level-up" ∧ b.learnMethod ≠ "level-up"
    ∧ (displayMethodRank a.learnMethod < displayMethodRank b.learnMethod
      ∨ (displayMethodRank a.learnMethod = displayMethodRank b.learnMethod
        ∧ a.name ≤ b.name)))

/-- `getMoves` at a given effective generation.  The asynchronous fetch of
move metadata (`pokeAPI.getMove`, read through `moveCache`) is embedded as
a pure function `fetchMove` from move name to the fetched record: a cache
hit and a fresh fetch return the same record for the same name under a
deterministic upstream, and the cache does not change the result.  The
final in-place `sort` is JavaScript's stable sort, embedded as
`mergeSort` by the comparator's `≤ 0` relation. -/
def getMovesAt (fetchMove : String → Move) (pokemon : Pokemon)
    (effectiveGeneration : Nat) : List MoveData :=
  let moveMap := buildMoveMap pokemon effectiveGeneration
  let moves := moveMap.map (fun entry => toMoveData (fetchMove entry.1) entry.2)
  moves.mergeSort (fun a b => decide (moveCompare a b ≤ 0))

/-! ## The generation-aware `transformPokemon`

`PokemonRepository.getPokemonDetails` calls
`transformPokemon(pokemon, species, effectiveGeneration)` and the test-suite
(`pokemonGeneration.test.ts`) exercises that three-argument form, but the
tree only contains the two-argument, generation-unaware
`transformPokemon` (`src/models/pokemon.ts`).  The generation-aware parts
are therefore modelled from the spec (§4.5). -/

/-- Modelled from the spec: the type-resolution step of the generation-aware
`transformPokemon`, whose source is not in the tree.  "If the entity has
historical type-override records, find the override with the smallest
`epoch` value such that `targetGeneration < epoch`, and if found, use that
override's type list instead of the current one; if none found, use the
current type list."  Without a target generation, types pass through. -/
def transformTypes (pokemon : Pokemon) (targetGeneration : Option Nat) :
    List String :=
  match targetGeneration with
  | none => pokemon.types.map (·.typeName)
  | some g =>
    match (pokemon.pastTypes.filter (fun o => decide (g < o.generation))).argmin
        (·.generation) with
    | some override => override.types.map (·.typeName)
    | none => pokemon.types.map (·.typeName)

/-- Modelled from the spec: the ability-resolution step of the
generation-aware `transformPokemon`, whose source is not in the tree.
"Delegate to `applyOverrides` (the in-tree
`applyHistoricalAbilityChanges`), additionally filtering out any ability
whose slot is `hidden` when `targetGeneration` is before hidden abilities
existed as a mechanic (generation < 5)."  The hidden slot of an ability
entry is its `is_hidden` flag.  Without a target generation, abilities
pass through (slot dropped). -/
def transformAbilities (pokemon : Pokemon) (targetGeneration : Option Nat) :
    List DisplayAbility :=
  match targetGeneration with
  | none => pokemon.abilities.map (fun a => { name := a.name, isHidden := a.isHidden })
  | some g =>
    let resolved := applyHistoricalAbilityChanges pokemon.id pokemon.name
      pokemon.abilities g
    if g < 5 then resolved.filter (fun a => !a.isHidden) else resolved

/-- The display record fields resolved by the generation-aware transform
(the remaining display fields — capitalized name, stats, sprites, species
metadata — are generation-independent and not touched by any claim). -/
structure PokemonDisplay : Type where
  id : Nat
  name : String
  types : List String
  abilities : List DisplayAbility
deriving DecidableEq

/-- Modelled from the spec: the generation-aware
`transform(rawEntity, speciesMetadata?, targetGeneration?)` of §4.5,
restricted to the generation-dependent fields (species metadata influences
neither types nor abilities). -/
def transformPokemon (pokemon : Pokemon) (targetGeneration : Option Nat := none) :
    PokemonDisplay :=
  { id := pokemon.id,
    name := pokemon.name,
    types := transformTypes pokemon targetGeneration,
    abilities := transformAbilities pokemon targetGeneration }

/-! ## Helper lemmas -/

/-- For every record of the override table, looking the table up with that
record's own id and name one generation before the change returns exactly
that record, and looking it up at the change generation returns nothing
(each Pokemon occurs in the table once, and ids and names are pairwise
distinct). -/
theorem getHistoricalAbilities_self :
    ∀ c ∈ POKEMON_ABILITY_CHANGES,
      getHistoricalAbilities c.pokemonId c.pokemonName (c.changeGeneration - 1) = [c]
        ∧ getHistoricalAbilities c.pokemonId c.pokemonName c.changeGeneration = [] := by
  decide

/-- When the override lookup returns a single record, the rewrite replaces
exactly the entries bearing that record's new ability name. -/
theorem applyHistoricalAbilityChanges_single (pokemonId : Nat) (pokemonName : String)
    (generation : Nat) (c : AbilityChange)
    (h : getHistoricalAbilities pokemonId pokemonName generation = [c])
    (L : List PokemonAbility) :
    applyHistoricalAbilityChanges pokemonId pokemonName L generation
      = L.map (fun a =>
          if c.newAbility = a.name then { name := c.oldAbility, isHidden := a.isHidden }
          else { name := a.name, isHidden := a.isHidden }) := by
  simp only [applyHistoricalAbilityChanges, h, List.length_cons, List.length_nil,
    Nat.succ_ne_zero, if_false, List.foldl_cons, List.foldl_nil, jsMapSet,
    List.any_nil, Bool.false_eq_true, if_false, List.nil_append, jsMapGet,
    List.find?_cons, List.find?_nil]
  apply List.map_congr_left
  intro a _
  by_cases hn : c.newAbility = a.name <;> simp [hn]

/-- When the override lookup returns nothing, the rewrite only strips the
slot field. -/
theorem applyHistoricalAbilityChanges_empty (pokemonId : Nat) (pokemonName : String)
    (generation : Nat)
    (h : getHistoricalAbilities pokemonId pokemonName generation = [])
    (L : List PokemonAbility) :
    applyHistoricalAbilityChanges pokemonId pokemonName L generation
      = L.map (fun a => { name := a.name, isHidden := a.isHidden }) := by
  simp [applyHistoricalAbilityChanges, h]

section LRULemmas

variable {K V : Type} [DecidableEq K]

/-- The backing map holds a key iff the key occurs among the entry keys. -/
theorem jsMapHas_eq_true_iff (l : List (K × V)) (k : K) :
    jsMapHas l k = true ↔ k ∈ l.map Prod.fst := by
  simp [jsMapHas, List.any_eq_true, List.mem_map]

/-- `jsMapHas` is `false` exactly for absent keys. -/
theorem jsMapHas_eq_false_iff (l : List (K × V)) (k : K) :
    jsMapHas l k = false ↔ k ∉ l.map Prod.fst := by
  rw [← jsMapHas_eq_true_iff]
  cases h : jsMapHas l k <;> simp [h]

/-- Setting an absent key appends the entry. -/
theorem jsMapSet_of_not_mem (l : List (K × V)) (k : K) (v : V)
    (h : k ∉ l.map Prod.fst) : jsMapSet l k v = l ++ [(k, v)] := by
  have h2 : l.any (fun p => decide (p.1 = k)) = false := by
    simpa [jsMapHas] using (jsMapHas_eq_false_iff l k).mpr h
  simp [jsMapSet, h2]

/-- `set` on a fresh key in a cache with spare room appends the entry. -/
theorem LRUCache.set_fresh (c : LRUCache K V) (k : K) (v : V)
    (hk : k ∉ c.cache.map Prod.fst) (hlen : c.cache.length + 1 ≤ c.maxSize) :
    c.set k v = ⟨c.cache ++ [(k, v)], c.maxSize⟩ := by
  have hhas : jsMapHas c.cache k = false := (jsMapHas_eq_false_iff _ _).mpr hk
  simp only [LRUCache.set, hhas, Bool.false_eq_true, if_false,
    jsMapSet_of_not_mem _ _ _ hk, List.length_append, List.length_singleton]
  rw [if_neg]
  omega

/-- `set` on a fresh key in a full cache appends the entry and evicts the
first (least-recently-used) entry. -/
theorem LRUCache.set_fresh_full (c : LRUCache K V) (k : K) (v : V)
    (hk : k ∉ c.cache.map Prod.fst) (hfull : c.cache.length = c.maxSize)
    (hpos : 0 < c.maxSize) :
    c.set k v = ⟨c.cache.tail ++ [(k, v)], c.maxSize⟩ := by
  have hhas : jsMapHas c.cache k = false := (jsMapHas_eq_false_iff _ _).mpr hk
  obtain ⟨p0, rest, hc⟩ : ∃ p0 rest, c.cache = p0 :: rest := by
    cases hcc : c.cache with
    | nil => rw [hcc] at hfull; simp at hfull; omega
    | cons p0 rest => exact ⟨p0, rest, rfl⟩
  simp only [LRUCache.set, hhas, Bool.false_eq_true, if_false,
    jsMapSet_of_not_mem _ _ _ hk]
  rw [if_pos]
  · rw [hc]
    simp [jsMapDelete]
  · simp only [List.length_append, List.length_singleton]
    omega

/-- Folding `set` over fresh, pairwise-distinct keys that fit in the
remaining room appends all entries in order. -/
theorem LRUCache.runSets_fresh (ps : List (K × V)) :
    ∀ (c : LRUCache K V),
      (c.cache.map Prod.fst ++ ps.map Prod.fst).Nodup →
      c.cache.length + ps.length ≤ c.maxSize →
      c.runSets ps = ⟨c.cache ++ ps, c.maxSize⟩ := by
  induction ps with
  | nil => intro c _ _; simp [LRUCache.runSets]
  | cons p rest ih =>
    intro c hnd hlen
    have hp : p.1 ∉ c.cache.map Prod.fst := by
      rw [List.nodup_append] at hnd
      intro hmem
      exact hnd.2.2 hmem (by simp)
    have hset := LRUCache.set_fresh c p.1 p.2 hp (by simp at hlen; omega)
    have hrun : c.runSets (p :: rest) = (c.set p.1 p.2).runSets rest := by
      simp [LRUCache.runSets]
    rw [hrun, hset]
    have hres := ih ⟨c.cache ++ [p], c.maxSize⟩
      (by simpa using hnd) (by simp at hlen ⊢; omega)
    simpa using hres

/-- `get` on the key of the cache's first entry (keys unique) promotes that
entry to the end and returns its value. -/
theorem LRUCache.get_head (c : LRUCache K V) (k0 : K) (v0 : V)
    (rest : List (K × V)) (hc : c.cache = (k0, v0) :: rest)
    (hk : k0 ∉ rest.map Prod.fst) :
    c.get k0 = (some v0, ⟨rest ++ [(k0, v0)], c.maxSize⟩) := by
  have hget : jsMapGet c.cache k0 = some v0 := by
    rw [hc]; simp [jsMapGet]
  have hdel : jsMapDelete c.cache k0 = rest := by
    rw [hc]; simp [jsMapDelete]
  simp only [LRUCache.get, hget, hdel, jsMapSet_of_not_mem _ _ _ hk]

/-- `has` in terms of key membership. -/
theorem LRUCache.has_iff (c : LRUCache K V) (k : K) :
    c.has k = true ↔ k ∈ c.cache.map Prod.fst :=
  jsMapHas_eq_true_iff c.cache k

/-- `jsMapSet` grows a map by at most one entry. -/
theorem jsMapSet_length_le (l : List (K × V)) (k : K) (v : V) :
    (jsMapSet l k v).length ≤ l.length + 1 := by
  unfold jsMapSet; split <;> simp

/-- One `set` keeps the entry count within `maxSize`, provided it was
within `maxSize` before. -/
theorem LRUCache.set_size_le (c : LRUCache K V) (k : K) (v : V)
    (h : c.cache.length ≤ c.maxSize) :
    (c.set k v).cache.length ≤ c.maxSize := by
  simp only [LRUCache.set]
  set AD := if jsMapHas c.cache k then jsMapDelete c.cache k else c.cache with hAD
  have hADle : AD.length ≤ c.cache.length := by
    rw [hAD]; split
    · exact List.length_eraseP_le _
    · exact le_rfl
  set AA := jsMapSet AD k v with hAA
  have hAAle : AA.length ≤ c.cache.length + 1 :=
    le_trans (jsMapSet_length_le AD k v) (by omega)
  split
  · cases hcase : AA.head? with
    | none =>
      rw [List.head?_eq_none_iff] at hcase
      simp [hcase]
    | some p0 =>
      obtain ⟨t, ht⟩ := List.head?_eq_some_iff.mp hcase
      have hdel : jsMapDelete AA p0.1 = t := by
        rw [ht]; simp [jsMapDelete]
      simp only [hdel]
      have : AA.length = t.length + 1 := by rw [ht]; simp
      omega
  · next hover =>
    simp only [gt_iff_lt, not_lt] at hover
    exact hover

/-- `set` never changes the capacity. -/
theorem LRUCache.set_maxSize (c : LRUCache K V) (k : K) (v : V) :
    (c.set k v).maxSize = c.maxSize := by
  simp only [LRUCache.set]
  (repeat' split) <;> rfl

/-- `get` never changes the capacity. -/
theorem LRUCache.get_maxSize (c : LRUCache K V) (k : K) :
    ((c.get k).2).maxSize = c.maxSize := by
  simp only [LRUCache.get]
  (repeat' split) <;> rfl

/-- `get` never increases the entry count. -/
theorem LRUCache.get_size_le (c : LRUCache K V) (k : K) :
    ((c.get k).2).cache.length ≤ c.cache.length := by
  simp only [LRUCache.get]
  cases hg : jsMapGet c.cache k with
  | none => simp
  | some v =>
    simp only
    obtain ⟨p, hp, hpk⟩ : ∃ p, p ∈ c.cache ∧ (fun q => decide (q.1 = k)) p = true := by
      unfold jsMapGet at hg
      cases hf : c.cache.find? (fun q => decide (q.1 = k)) with
      | none => rw [hf] at hg; simp at hg
      | some q =>
        have h1 := List.find?_some hf
        have h2 := List.mem_of_find?_eq_some hf
        exact ⟨q, h2, h1⟩
    have hdel : (jsMapDelete c.cache k).length = c.cache.length - 1 :=
      List.length_eraseP_of_mem hp hpk
    have hne : c.cache ≠ [] := by
      intro hnil; rw [hnil] at hp; simp at hp
    have hpos : 1 ≤ c.cache.length := List.length_pos.mpr hne
    have hsetle := jsMapSet_length_le (jsMapDelete c.cache k) k v
    omega

/-- One cache operation keeps the entry count within `maxSize` and does not
change `maxSize`. -/
theorem LRUCache.step_size_le (c : LRUCache K V) (op : CacheOp K V)
    (h : c.cache.length ≤ c.maxSize) :
    (c.step op).cache.length ≤ c.maxSize ∧ (c.step op).maxSize = c.maxSize := by
  cases op with
  | get k => exact ⟨le_trans (c.get_size_le k) h, c.get_maxSize k⟩
  | set k v => exact ⟨c.set_size_le k v h, c.set_maxSize k v⟩
  | has k => exact ⟨h, rfl⟩
  | clear => exact ⟨by simp [LRUCache.step, LRUCache.clear], rfl⟩

/-- Any run of cache operations keeps the entry count within `maxSize`. -/
theorem LRUCache.run_size_le (ops : List (CacheOp K V)) :
    ∀ (c : LRUCache K V), c.cache.length ≤ c.maxSize →
      (c.run ops).cache.length ≤ c.maxSize ∧ (c.run ops).maxSize = c.maxSize := by
  induction ops with
  | nil => intro c h; exact ⟨h, rfl⟩
  | cons op rest ih =>
    intro c h
    have hstep := c.step_size_le op h
    have hrun : c.run (op :: rest) = (c.step op).run rest := by
      simp [LRUCache.run]
    have hres := ih (c.step op) (by rw [hstep.2]; exact hstep.1)
    rw [hrun]
    exact ⟨by rw [← hstep.2]; exact hres.1, by rw [hres.2, hstep.2]⟩

/-- With capacity 0, `set` on an empty cache leaves it empty: the appended
entry immediately overflows and is evicted again. -/
theorem LRUCache.set_zero (c : LRUCache K V) (hm : c.maxSize = 0)
    (hc : c.cache = []) (k : K) (v : V) : (c.set k v).cache = [] := by
  simp [LRUCache.set, hc, hm, jsMapHas, jsMapSet, jsMapDelete]

/-- Inserting `n + 1` entries with pairwise-distinct keys into a fresh cache
of capacity `n = (p0 :: mid).length` evicts exactly the first key. -/
theorem LRUCache.overflow_evicts_first (p0 : K × V) (mid : List (K × V)) (plast : K × V)
    (hnd : ((p0 :: mid ++ [plast]).map Prod.fst).Nodup) :
    ((LRUCache.new (p0 :: mid).length : LRUCache K V).runSets
        (p0 :: mid ++ [plast])).has p0.1 = false
      ∧ ∀ q ∈ mid ++ [plast],
        ((LRUCache.new (p0 :: mid).length : LRUCache K V).runSets
          (p0 :: mid ++ [plast])).has q.1 = true := by
  have hnd1 : (p0.1 :: (mid ++ [plast]).map Prod.fst).Nodup := by simpa using hnd
  have hp0 : p0.1 ∉ (mid ++ [plast]).map Prod.fst := (List.nodup_cons.mp hnd1).1
  have hndKeys : ((p0 :: mid).map Prod.fst ++ [plast.1]).Nodup := by
    simpa [List.map_cons, List.map_append] using hnd
  have hfill : (LRUCache.new (p0 :: mid).length : LRUCache K V).runSets (p0 :: mid)
      = ⟨p0 :: mid, (p0 :: mid).length⟩ := by
    have h := LRUCache.runSets_fresh (p0 :: mid) (LRUCache.new (p0 :: mid).length)
      (by simpa [LRUCache.new] using hndKeys.of_append_left) (by simp [LRUCache.new])
    simpa [LRUCache.new] using h
  have hsplit : (LRUCache.new (p0 :: mid).length : LRUCache K V).runSets (p0 :: mid ++ [plast])
      = (((LRUCache.new (p0 :: mid).length : LRUCache K V).runSets (p0 :: mid)).set plast.1 plast.2) := by
    show List.foldl _ _ (p0 :: mid ++ [plast]) = _
    rw [show p0 :: mid ++ [plast] = (p0 :: mid) ++ [plast] from rfl, List.foldl_append]
    rfl
  have hplast_fresh : plast.1 ∉ (p0 :: mid).map Prod.fst := by
    rw [List.nodup_append] at hndKeys
    intro hmem
    exact hndKeys.2.2 hmem (by simp)
  have hfinal : ((LRUCache.new (p0 :: mid).length : LRUCache K V).runSets
      (p0 :: mid ++ [plast])).cache = mid ++ [plast] := by
    rw [hsplit, hfill,
      LRUCache.set_fresh_full ⟨p0 :: mid, (p0 :: mid).length⟩ plast.1 plast.2 hplast_fresh rfl (by simp)]
    simp
  constructor
  · show jsMapHas _ p0.1 = false
    rw [jsMapHas_eq_false_iff, hfinal]
    exact hp0
  · intro q hq
    rw [LRUCache.has_iff, hfinal]
    exact List.mem_map_of_mem Prod.fst hq

/-- When the first key is re-accessed with `get` after at least one further
key has been inserted, the overflowing `(n+1)`-th insert retains the first
key and evicts the second-inserted key — the least-recently-touched of the
remaining keys. -/
theorem LRUCache.reaccess_after_second_retains_first (p0 p1 : K × V) (ts ps2 : List (K × V)) (plast : K × V)
    (hnd : ((p0 :: p1 :: ts ++ ps2 ++ [plast]).map Prod.fst).Nodup) :
    (((((LRUCache.new ((p0 :: p1 :: ts).length + ps2.length) : LRUCache K V).runSets
          (p0 :: p1 :: ts)).get p0.1).2.runSets ps2).set plast.1 plast.2).has p0.1 = true
      ∧ (((((LRUCache.new ((p0 :: p1 :: ts).length + ps2.length) : LRUCache K V).runSets
          (p0 :: p1 :: ts)).get p0.1).2.runSets ps2).set plast.1 plast.2).has p1.1 = false
      ∧ ∀ q ∈ ts ++ ps2 ++ [plast],
          (((((LRUCache.new ((p0 :: p1 :: ts).length + ps2.length) : LRUCache K V).runSets
            (p0 :: p1 :: ts)).get p0.1).2.runSets ps2).set plast.1 plast.2).has q.1 = true := by
  have hnd0 : (p0.1 :: p1.1 :: (ts.map Prod.fst ++ ps2.map Prod.fst ++ [plast.1])).Nodup := by
    simpa using hnd
  have hK0 := (List.nodup_cons.mp hnd0).1
  have hK1 := (List.nodup_cons.mp (List.nodup_cons.mp hnd0).2).1
  have hrest := (List.nodup_cons.mp (List.nodup_cons.mp hnd0).2).2
  simp only [List.mem_cons, List.mem_append, List.mem_singleton, not_or] at hK0 hK1
  have hL : plast.1 ∉ ts.map Prod.fst ++ ps2.map Prod.fst :=
    (List.nodup_cons.mp ((List.perm_append_singleton plast.1
      (ts.map Prod.fst ++ ps2.map Prod.fst)).nodup hrest)).1
  simp only [List.mem_append, not_or] at hL
  -- the nodup core: keys of ts, ps2 are nodup and mutually disjoint
  have hcore : (p0.1 :: p1.1 :: (ts.map Prod.fst ++ ps2.map Prod.fst)).Nodup := by
    have hsub : List.Sublist (p0.1 :: p1.1 :: (ts.map Prod.fst ++ ps2.map Prod.fst))
        (p0.1 :: p1.1 :: (ts.map Prod.fst ++ ps2.map Prod.fst ++ [plast.1])) := by
      refine List.Sublist.cons₂ _ (List.Sublist.cons₂ _ ?_)
      exact List.sublist_append_left _ _
    exact hnd0.sublist hsub
  -- stage 1: fill with the first j = ts.length + 2 inserts
  have hc1 : (LRUCache.new ((p0 :: p1 :: ts).length + ps2.length) : LRUCache K V).runSets
      (p0 :: p1 :: ts) = ⟨p0 :: p1 :: ts, (p0 :: p1 :: ts).length + ps2.length⟩ := by
    have hsub : List.Sublist ((p0 :: p1 :: ts).map Prod.fst)
        (p0.1 :: p1.1 :: (ts.map Prod.fst ++ ps2.map Prod.fst ++ [plast.1])) := by
      simp only [List.map_cons]
      refine List.Sublist.cons₂ _ (List.Sublist.cons₂ _ ?_)
      exact (List.sublist_append_left _ _).trans (List.sublist_append_left _ _)
    have h := LRUCache.runSets_fresh (p0 :: p1 :: ts)
      (LRUCache.new ((p0 :: p1 :: ts).length + ps2.length))
      (by simpa [LRUCache.new] using hnd0.sublist hsub)
      (by simp [LRUCache.new])
    simpa [LRUCache.new] using h
  -- stage 2: re-access the first key, promoting it to most-recently-used
  have hc2 : ((⟨p0 :: p1 :: ts, (p0 :: p1 :: ts).length + ps2.length⟩ : LRUCache K V).get p0.1).2
      = ⟨(p1 :: ts) ++ [p0], (p0 :: p1 :: ts).length + ps2.length⟩ := by
    have h := LRUCache.get_head
      (⟨p0 :: p1 :: ts, (p0 :: p1 :: ts).length + ps2.length⟩ : LRUCache K V)
      p0.1 p0.2 (p1 :: ts) (by simp)
      (by simp only [List.map_cons, List.mem_cons, not_or]; tauto)
    rw [h]
  -- stage 3: the remaining inserts, up to capacity
  have hperm3 : List.Perm ((p0 :: p1 :: ts ++ ps2).map Prod.fst)
      (((p1 :: ts) ++ [p0]).map Prod.fst ++ ps2.map Prod.fst) := by
    simp only [List.map_cons, List.map_append, List.map_cons, List.map_nil,
      List.cons_append, List.nil_append, List.append_assoc, List.singleton_append]
    exact (List.Perm.swap p1.1 p0.1 _).trans (List.perm_middle.symm.cons p1.1)
  have hc3 : (⟨(p1 :: ts) ++ [p0], (p0 :: p1 :: ts).length + ps2.length⟩ : LRUCache K V).runSets ps2
      = ⟨(p1 :: ts) ++ [p0] ++ ps2, (p0 :: p1 :: ts).length + ps2.length⟩ := by
    have h := LRUCache.runSets_fresh ps2
      (⟨(p1 :: ts) ++ [p0], (p0 :: p1 :: ts).length + ps2.length⟩ : LRUCache K V)
      (by
        refine hperm3.nodup ?_
        simpa using hcore)
      (by simp)
    rw [h]
  -- stage 4: the overflowing insert evicts the now-least-recent second key
  have hc4 : ((⟨(p1 :: ts) ++ [p0] ++ ps2, (p0 :: p1 :: ts).length + ps2.length⟩ : LRUCache K V).set
        plast.1 plast.2).cache = (ts ++ [p0] ++ ps2) ++ [plast] := by
    rw [LRUCache.set_fresh_full _ plast.1 plast.2
      (by
        simp only [List.map_append, List.map_cons, List.map_nil, List.mem_append,
          List.mem_cons, List.mem_singleton, List.not_mem_nil, not_or, or_false]
        tauto)
      (by simp; omega) (by simp)]
    simp
  rw [hc1, hc2, hc3]
  refine ⟨?_, ?_, ?_⟩
  · rw [LRUCache.has_iff, hc4]
    simp
  · show jsMapHas _ p1.1 = false
    rw [jsMapHas_eq_false_iff, hc4]
    simp only [List.map_append, List.map_cons, List.map_nil, List.mem_append,
      List.mem_cons, List.mem_singleton, List.not_mem_nil, not_or, or_false]
    tauto
  · intro q hq
    rw [LRUCache.has_iff, hc4]
    simp only [List.map_append, List.map_cons, List.map_nil, List.mem_append,
      List.mem_cons, List.mem_singleton]
    rcases List.mem_append.mp hq with hq | hq
    · rcases List.mem_append.mp hq with hq | hq
      · exact Or.inl (Or.inl (Or.inl (List.mem_map_of_mem Prod.fst hq)))
      · exact Or.inl (Or.inr (List.mem_map_of_mem Prod.fst hq))
    · simp at hq
      exact Or.inr (Or.inl (by rw [hq]))

end LRULemmas

/-! ## Claim theorems -/

/-- C4: for every override record with change generation `G` and every
current ability list, applying the override table at view generation
`G - 1` replaces exactly the entries bearing the record's new ability name
with the old ability name, while applying it at view generation `G` leaves
every name in place; both results arise from the input by an entrywise
`map` that keeps each entry's hidden flag (so length and order are
preserved and the slot field is dropped). -/
theorem c4_override_directionality (c : AbilityChange)
    (hc : c ∈ POKEMON_ABILITY_CHANGES) (L : List PokemonAbility) :
    (applyHistoricalAbilityChanges c.pokemonId c.pokemonName L (c.changeGeneration - 1)
        = L.map (fun a =>
            if c.newAbility = a.name then { name := c.oldAbility, isHidden := a.isHidden }
            else { name := a.name, isHidden := a.isHidden }))
      ∧ (applyHistoricalAbilityChanges c.pokemonId c.pokemonName L c.changeGeneration
        = L.map (fun a => { name := a.name, isHidden := a.isHidden }))
      ∧ ((applyHistoricalAbilityChanges c.pokemonId c.pokemonName L
            (c.changeGeneration - 1)).map (·.isHidden) = L.map (·.isHidden))
      ∧ ((applyHistoricalAbilityChanges c.pokemonId c.pokemonName L
            (c.changeGeneration - 1)).length = L.length)
      ∧ ((applyHistoricalAbilityChanges c.pokemonId c.pokemonName L
            c.changeGeneration).length = L.length) := by
  obtain ⟨h1, h2⟩ := getHistoricalAbilities_self c hc
  have e1 := applyHistoricalAbilityChanges_single c.pokemonId c.pokemonName
    (c.changeGeneration - 1) c h1 L
  have e2 := applyHistoricalAbilityChanges_empty c.pokemonId c.pokemonName
    c.changeGeneration h2 L
  refine ⟨e1, e2, ?_, ?_, ?_⟩
  · rw [e1, List.map_map]
    apply List.map_congr_left
    intro a _
    by_cases hn : c.newAbility = a.name <;> simp [hn]
  · rw [e1, List.length_map]
  · rw [e2, List.length_map]

/-- C4 witness: the Gengar record (`levitate` → `cursed-body` in
generation 7) on the concrete singleton ability list of the test-suite:
at generation 6 the old name shows, at generation 7 the new one stays. -/
theorem c4_override_directionality_witness :
    applyHistoricalAbilityChanges 94 "gengar" [⟨"cursed-body", false, 1⟩] 6
        = [⟨"levitate", false⟩]
      ∧ applyHistoricalAbilityChanges 94 "gengar" [⟨"cursed-body", false, 1⟩] 7
        = [⟨"cursed-body", false⟩] := by
  have h := c4_override_directionality
    { pokemonId := 94, pokemonName := "gengar",
      oldAbility := "levitate", newAbility := "cursed-body",
      abilitySlot := "ability1", changeGeneration := 7,
      notes := some "Major nerf - lost Ground immunity, now vulnerable to Earthquake/Spikes" }
    (by decide) [⟨"cursed-body", false, 1⟩]
  exact ⟨by simpa using h.1, by simpa using h.2.1⟩

/-- C6: the session generation starts at 9; `setSessionGeneration g`
succeeds and stores `g` exactly for `g ∈ [1, 9]`, and for any `g` outside
that range it fails with the invalid-generation error and leaves the
stored value unchanged. -/
theorem c6_session_generation_validation :
    GenerationService.new.getSessionGeneration = 9
      ∧ (∀ (s : GenerationService) (g : Int), 1 ≤ g → g ≤ 9 →
          s.setSessionGeneration g = (.ok (), ⟨g⟩)
            ∧ (s.setSessionGeneration g).2.getSessionGeneration = g)
      ∧ (∀ (s : GenerationService) (g : Int), g < 1 ∨ 9 < g →
          (s.setSessionGeneration g).1 = .error (.invalidGeneration g)
            ∧ (s.setSessionGeneration g).2 = s) := by
  refine ⟨rfl, ?_, ?_⟩
  · intro s g h1 h9
    have hcond : ¬(g < 1 ∨ g > 9) := by omega
    constructor <;> simp [GenerationService.setSessionGeneration,
      GenerationService.getSessionGeneration, hcond]
  · intro s g h
    have hcond : g < 1 ∨ g > 9 := h
    constructor <;> simp [GenerationService.setSessionGeneration, hcond]

/-- C6 witness: setting 5 succeeds and reads back 5; setting 0 or 10 from
a cache holding 7 errors and leaves 7 in place. -/
theorem c6_session_generation_validation_witness :
    GenerationService.new.getSessionGeneration = 9
      ∧ ((⟨7⟩ : GenerationService).setSessionGeneration 5).2.getSessionGeneration = 5
      ∧ ((⟨7⟩ : GenerationService).setSessionGeneration 0).1
          = .error (.invalidGeneration 0)
      ∧ ((⟨7⟩ : GenerationService).setSessionGeneration 0).2 = ⟨7⟩
      ∧ ((⟨7⟩ : GenerationService).setSessionGeneration 10).1
          = .error (.invalidGeneration 10)
      ∧ ((⟨7⟩ : GenerationService).setSessionGeneration 10).2 = ⟨7⟩ :=
  ⟨c6_session_generation_validation.1,
   (c6_session_generation_validation.2.1 ⟨7⟩ 5 (by decide) (by decide)).2,
   (c6_session_generation_validation.2.2 ⟨7⟩ 0 (Or.inl (by decide))).1,
   (c6_session_generation_validation.2.2 ⟨7⟩ 0 (Or.inl (by decide))).2,
   (c6_session_generation_validation.2.2 ⟨7⟩ 10 (Or.inr (by decide))).1,
   (c6_session_generation_validation.2.2 ⟨7⟩ 10 (Or.inr (by decide))).2⟩

/-- C9: the effective generation is exactly the maximum of the session
generation and the introduced-in generation, hence never below the
introduced-in generation. -/
theorem c9_effective_generation_floor :
    ∀ (s : GenerationService) (introducedInGeneration : Int),
      s.getEffectiveGeneration introducedInGeneration
          = max s.getSessionGeneration introducedInGeneration
        ∧ introducedInGeneration ≤ s.getEffectiveGeneration introducedInGeneration :=
  fun s i => ⟨rfl, le_max_right s.sessionGeneration i⟩

/-- C5 counterexample: with capacity `n = 2` and the three distinct keys
0, 1, 2 inserted in order, where key 0 is re-accessed with `get` after its
insertion and before the third insert, the claim predicts key 0 is present;
the code evicts it (the `get` happened while 0 was the only entry, so 0 is
still the least-recently-used entry at overflow time). -/
theorem c5_lru_reaccess_counterexample :
    ((((((LRUCache.new 2 : LRUCache Nat Nat).set 0 10).get 0).2.set 1 11).set 2 12).has 0)
      = false := by
  decide

/-- C5 (amended): for a cache of capacity `n ≥ 1`, after inserting `n + 1`
distinct keys in order the first-inserted key is absent and the other `n`
keys are present; and if the first key was re-accessed with `get` after at
least one further key had been inserted (and before the `(n+1)`-th insert),
the first key is present and the second-inserted key — the
least-recently-touched of the remaining keys — is the one evicted, all
other keys being present.  (The amendment: the claim as stated lets the
re-access happen directly after the first insertion, before any other key
is present, in which case the first key is still the least-recently-used
at overflow time and is evicted — see the counterexample.) -/
theorem c5_lru_eviction (K V : Type) [DecidableEq K] :
    (∀ (p0 : K × V) (mid : List (K × V)) (plast : K × V),
      ((p0 :: mid ++ [plast]).map Prod.fst).Nodup →
      ((LRUCache.new (p0 :: mid).length : LRUCache K V).runSets
          (p0 :: mid ++ [plast])).has p0.1 = false
        ∧ ∀ q ∈ mid ++ [plast],
          ((LRUCache.new (p0 :: mid).length : LRUCache K V).runSets
            (p0 :: mid ++ [plast])).has q.1 = true)
    ∧ (∀ (p0 p1 : K × V) (ts ps2 : List (K × V)) (plast : K × V),
      ((p0 :: p1 :: ts ++ ps2 ++ [plast]).map Prod.fst).Nodup →
      (((((LRUCache.new ((p0 :: p1 :: ts).length + ps2.length) : LRUCache K V).runSets
            (p0 :: p1 :: ts)).get p0.1).2.runSets ps2).set plast.1 plast.2).has p0.1 = true
        ∧ (((((LRUCache.new ((p0 :: p1 :: ts).length + ps2.length) : LRUCache K V).runSets
            (p0 :: p1 :: ts)).get p0.1).2.runSets ps2).set plast.1 plast.2).has p1.1 = false
        ∧ ∀ q ∈ ts ++ ps2 ++ [plast],
            (((((LRUCache.new ((p0 :: p1 :: ts).length + ps2.length) : LRUCache K V).runSets
              (p0 :: p1 :: ts)).get p0.1).2.runSets ps2).set plast.1 plast.2).has q.1 = true) :=
  ⟨fun p0 mid plast hnd => LRUCache.overflow_evicts_first p0 mid plast hnd,
   fun p0 p1 ts ps2 plast hnd =>
     LRUCache.reaccess_after_second_retains_first p0 p1 ts ps2 plast hnd⟩

/-- C5 witness: capacity 2; plain inserts 0, 1, 2 evict key 0; inserts
0, 1 followed by `get 0` and the overflowing insert 2 retain key 0 and
evict key 1. -/
theorem c5_lru_eviction_witness :
    (((LRUCache.new 2 : LRUCache Nat Nat).runSets [(0, 10), (1, 11), (2, 12)]).has 0 = false)
      ∧ ((((((LRUCache.new 2 : LRUCache Nat Nat).runSets [(0, 10), (1, 11)]).get 0).2.runSets
          []).set 2 12).has 0 = true)
      ∧ ((((((LRUCache.new 2 : LRUCache Nat Nat).runSets [(0, 10), (1, 11)]).get 0).2.runSets
          []).set 2 12).has 1 = false) :=
  ⟨((c5_lru_eviction Nat Nat).1 (0, 10) [(1, 11)] (2, 12) (by decide)).1,
   ((c5_lru_eviction Nat Nat).2 (0, 10) (1, 11) [] [] (2, 12) (by decide)).1,
   ((c5_lru_eviction Nat Nat).2 (0, 10) (1, 11) [] [] (2, 12) (by decide)).2.1⟩

/-- C8: starting from a fresh cache of any capacity, the size never exceeds
the capacity after any finite sequence of operations; and with capacity 0,
a `set` performed at any reachable state stores nothing — the subsequent
`get` and `has` on that key miss. -/
theorem c8_capacity_invariant {K V : Type} [DecidableEq K] (capacity : Nat)
    (ops : List (CacheOp K V)) :
    ((LRUCache.new capacity : LRUCache K V).run ops).size ≤ capacity
      ∧ (capacity = 0 → ∀ (key : K) (value : V),
          (((LRUCache.new capacity : LRUCache K V).run ops).set key value).has key = false
            ∧ ((((LRUCache.new capacity : LRUCache K V).run ops).set key value).get key).1
              = none) := by
  have hrun := LRUCache.run_size_le ops (LRUCache.new capacity) (by simp [LRUCache.new])
  refine ⟨hrun.1, ?_⟩
  intro h0 key value
  subst h0
  have h1 : ((LRUCache.new 0 : LRUCache K V).run ops).cache = [] :=
    List.length_eq_zero.mp (Nat.le_zero.mp hrun.1)
  have h2 : (((LRUCache.new 0 : LRUCache K V).run ops).set key value).cache = [] :=
    LRUCache.set_zero _ hrun.2 h1 key value
  constructor
  · simp [LRUCache.has, jsMapHas, h2]
  · simp [LRUCache.get, jsMapGet, h2]

/-- C8 witness: at capacity 2 a run of three inserts has size at most 2;
at capacity 0 a `set` leaves `get`/`has` missing. -/
theorem c8_capacity_invariant_witness :
    ((LRUCache.new 2 : LRUCache Nat Nat).run [.set 1 1, .set 2 2, .set 3 3]).size ≤ 2
      ∧ (((LRUCache.new 0 : LRUCache Nat Nat).run []).set 5 50).has 5 = false
      ∧ ((((LRUCache.new 0 : LRUCache Nat Nat).run []).set 5 50).get 5).1 = none :=
  ⟨(c8_capacity_invariant 2 [.set 1 1, .set 2 2, .set 3 3]).1,
   ((c8_capacity_invariant 0 []).2 rfl 5 50).1,
   ((c8_capacity_invariant 0 []).2 rfl 5 50).2⟩

/-- The override rewrite never touches hidden flags: the output's flag list
equals the input's. -/
theorem applyHistoricalAbilityChanges_isHidden (pokemonId : Nat) (pokemonName : String)
    (L : List PokemonAbility) (generation : Nat) :
    (applyHistoricalAbilityChanges pokemonId pokemonName L generation).map (·.isHidden)
      = L.map (·.isHidden) := by
  simp only [applyHistoricalAbilityChanges]
  split
  · rw [List.map_map]
    rfl
  · rw [List.map_map]
    apply List.map_congr_left
    intro a _
    simp only [Function.comp]
    cases jsMapGet _ a.name <;> rfl

/-- C1: with a target generation `g`, the transformed record's type list is
the type list of the qualifying override (`g < epoch`) with the smallest
epoch when one exists, and the current type list otherwise; in particular
the dual-type scenario (current `[water, fairy]`, single pre-6 override
`[water]`) shows `[water]` at `g = 5` and `[water, fairy]` at `g = 6`. -/
theorem c1_type_resolution :
    (∀ (p : Pokemon) (g : Nat),
      ((p.pastTypes.filter (fun o => decide (g < o.generation))).argmin (·.generation)
          = none →
        (transformPokemon p (some g)).types = p.types.map (·.typeName))
      ∧ (∀ o, (p.pastTypes.filter (fun o => decide (g < o.generation))).argmin
            (·.generation) = some o →
        (transformPokemon p (some g)).types = o.types.map (·.typeName)
          ∧ o ∈ p.pastTypes ∧ g < o.generation
          ∧ ∀ o' ∈ p.pastTypes, g < o'.generation → o.generation ≤ o'.generation)
      ∧ ((p.pastTypes.filter (fun o => decide (g < o.generation))).argmin (·.generation)
            = none ↔
          p.pastTypes.filter (fun o => decide (g < o.generation)) = []))
    ∧ (transformPokemon
        ⟨183, "marill", [⟨1, "water"⟩, ⟨2, "fairy"⟩], [⟨6, [⟨1, "water"⟩]⟩], [], []⟩
        (some 5)).types = ["water"]
    ∧ (transformPokemon
        ⟨183, "marill", [⟨1, "water"⟩, ⟨2, "fairy"⟩], [⟨6, [⟨1, "water"⟩]⟩], [], []⟩
        (some 6)).types = ["water", "fairy"] := by
  refine ⟨fun p g => ⟨?_, fun o ho => ⟨?_, ?_, ?_, ?_⟩, List.argmin_eq_none⟩, by decide, by decide⟩
  · intro h
    simp [transformPokemon, transformTypes, h]
  · simp [transformPokemon, transformTypes, ho]
  · exact List.mem_of_mem_filter (List.argmin_mem ho)
  · have := List.of_mem_filter (List.argmin_mem ho)
    simpa using this
  · intro o' ho' hg
    exact List.le_of_mem_argmin (List.mem_filter.mpr ⟨ho', by simpa using hg⟩) ho

/-- C1 witness: the scenario entity at `g = 6` has no qualifying override
(types pass through), and at `g = 5` the epoch-6 override's list is used. -/
theorem c1_type_resolution_witness :
    (transformPokemon
        ⟨183, "marill", [⟨1, "water"⟩, ⟨2, "fairy"⟩], [⟨6, [⟨1, "water"⟩]⟩], [], []⟩
        (some 6)).types
      = ([⟨1, "water"⟩, ⟨2, "fairy"⟩] : List TypeSlot).map (·.typeName)
    ∧ (transformPokemon
        ⟨183, "marill", [⟨1, "water"⟩, ⟨2, "fairy"⟩], [⟨6, [⟨1, "water"⟩]⟩], [], []⟩
        (some 5)).types
      = ([⟨1, "water"⟩] : List TypeSlot).map (·.typeName) :=
  ⟨(c1_type_resolution.1
      ⟨183, "marill", [⟨1, "water"⟩, ⟨2, "fairy"⟩], [⟨6, [⟨1, "water"⟩]⟩], [], []⟩ 6).1
      (by decide),
   ((c1_type_resolution.1
      ⟨183, "marill", [⟨1, "water"⟩, ⟨2, "fairy"⟩], [⟨6, [⟨1, "water"⟩]⟩], [], []⟩ 5).2.1
      ⟨6, [⟨1, "water"⟩]⟩ (by decide)).1⟩

/-- C2: at a target generation below 5 the transformed ability list contains
no hidden-slot ability at all — it is exactly the override-resolved list
with the hidden entries filtered out, in order (so non-hidden abilities are
unaffected); at generation 5 and above the override-resolved list passes
through unfiltered, each entry keeping its hidden flag. -/
theorem c2_hidden_ability_filter (p : Pokemon) (g : Nat) :
    (g < 5 → ∀ a ∈ (transformPokemon p (some g)).abilities, a.isHidden = false)
      ∧ (g < 5 → (transformPokemon p (some g)).abilities
          = (applyHistoricalAbilityChanges p.id p.name p.abilities g).filter
              (fun a => !a.isHidden))
      ∧ (5 ≤ g → (transformPokemon p (some g)).abilities
          = applyHistoricalAbilityChanges p.id p.name p.abilities g)
      ∧ (5 ≤ g → (transformPokemon p (some g)).abilities.map (·.isHidden)
          = p.abilities.map (·.isHidden)) := by
  refine ⟨?_, ?_, ?_, ?_⟩
  · intro h5 a ha
    simp only [transformPokemon, transformAbilities, if_pos h5] at ha
    have := List.of_mem_filter ha
    simpa using this
  · intro h5
    simp [transformPokemon, transformAbilities, if_pos h5]
  · intro h5
    simp [transformPokemon, transformAbilities, Nat.not_lt.mpr h5]
  · intro h5
    simp only [transformPokemon, transformAbilities, Nat.not_lt.mpr h5, if_false]
    exact applyHistoricalAbilityChanges_isHidden p.id p.name p.abilities g

/-- C2 witness: the two-ability entity of the test-suite (`static` plus
hidden `lightning-rod`) at `g = 4` and `g = 5`. -/
theorem c2_hidden_ability_filter_witness :
    (∀ a ∈ (transformPokemon
        ⟨25, "pikachu", [⟨1, "electric"⟩], [],
          [⟨"static", false, 1⟩, ⟨"lightning-rod", true, 3⟩], []⟩
        (some 4)).abilities, a.isHidden = false)
      ∧ (transformPokemon
          ⟨25, "pikachu", [⟨1, "electric"⟩], [],
            [⟨"static", false, 1⟩, ⟨"lightning-rod", true, 3⟩], []⟩
          (some 5)).abilities.map (·.isHidden)
        = ([⟨"static", false, 1⟩, ⟨"lightning-rod", true, 3⟩] : List PokemonAbility).map
            (·.isHidden) :=
  ⟨(c2_hidden_ability_filter
      ⟨25, "pikachu", [⟨1, "electric"⟩], [],
        [⟨"static", false, 1⟩, ⟨"lightning-rod", true, 3⟩], []⟩ 4).1 (by decide),
   (c2_hidden_ability_filter
      ⟨25, "pikachu", [⟨1, "electric"⟩], [],
        [⟨"static", false, 1⟩, ⟨"lightning-rod", true, 3⟩], []⟩ 5).2.2.2 (by decide)⟩


/-! ## Move resolver lemmas and claims C3, C7, C10 -/

/-- The descending-generation comparator of `validDetails` is transitive. -/
theorem descGen_trans (a b c : VersionGroupDetail)
    (h1 : (decide (getGenerationFromVersionGroup b.versionGroup
        ≤ getGenerationFromVersionGroup a.versionGroup)) = true)
    (h2 : (decide (getGenerationFromVersionGroup c.versionGroup
        ≤ getGenerationFromVersionGroup b.versionGroup)) = true) :
    (decide (getGenerationFromVersionGroup c.versionGroup
        ≤ getGenerationFromVersionGroup a.versionGroup)) = true := by
  simp at h1 h2 ⊢
  omega

/-- The head of `validDetails` is a surviving record of maximal release
generation. -/
theorem validDetails_head (e : Nat) (mv : PokemonMoveEntry) (d : VersionGroupDetail)
    (h : (validDetails e mv).head? = some d) :
    d ∈ survivingDetails e mv
      ∧ ∀ d' ∈ survivingDetails e mv,
          getGenerationFromVersionGroup d'.versionGroup
            ≤ getGenerationFromVersionGroup d.versionGroup := by
  have hperm := List.mergeSort_perm (survivingDetails e mv)
    (fun a b => decide (getGenerationFromVersionGroup b.versionGroup
      ≤ getGenerationFromVersionGroup a.versionGroup))
  have hsorted := List.sorted_mergeSort
    (fun a b c => descGen_trans a b c)
    (fun a b => by
      simp only [Bool.or_eq_true, decide_eq_true_eq]
      omega)
    (survivingDetails e mv)
  obtain ⟨t, ht⟩ := List.head?_eq_some_iff.mp h
  unfold validDetails at ht
  rw [ht] at hperm hsorted
  constructor
  · exact hperm.mem_iff.mp (by simp)
  · intro d' hd'
    have : d' ∈ d :: t := hperm.mem_iff.mpr hd'
    rcases List.mem_cons.mp this with rfl | hmem
    · exact le_rfl
    · have := (List.pairwise_cons.mp hsorted).1 d' hmem
      simpa using this

/-- `validDetails` is empty exactly when no record survives the filter. -/
theorem validDetails_eq_nil_iff (e : Nat) (mv : PokemonMoveEntry) :
    validDetails e mv = [] ↔ survivingDetails e mv = [] := by
  have hperm := List.mergeSort_perm (survivingDetails e mv)
    (fun a b => decide (getGenerationFromVersionGroup b.versionGroup
      ≤ getGenerationFromVersionGroup a.versionGroup))
  unfold validDetails
  constructor
  · intro h
    have := hperm.length_eq
    rw [h] at this
    exact List.length_eq_zero.mp this.symm
  · intro h
    rw [h]
    simp

/-- Any entry of `jsMapSet l k v` is the new entry or one of the old ones. -/
theorem jsMapSet_mem_cases {K V : Type} [DecidableEq K] (l : List (K × V)) (k : K) (v : V) :
    ∀ q ∈ jsMapSet l k v, q = (k, v) ∨ q ∈ l := by
  intro q hq
  unfold jsMapSet at hq
  split at hq
  · rcases List.mem_map.mp hq with ⟨r, hr, hrq⟩
    by_cases hcase : r.1 = k
    · rw [if_pos hcase] at hrq
      exact Or.inl hrq.symm
    · rw [if_neg hcase] at hrq
      exact Or.inr (hrq ▸ hr)
  · rcases List.mem_append.mp hq with hl | hr
    · exact Or.inr hl
    · simp at hr
      exact Or.inl hr

/-- Fold-step analysis: after folding the `moveMap` loop over `ms`, every
entry either was already present or stems from some move of `ms` (its key
that move's name, its value the method/level of the first valid detail). -/
theorem buildMoveMap_fold_mem (e : Nat) :
    ∀ (ms : List PokemonMoveEntry) (acc : List (String × LearnInfo)),
      ∀ q ∈ ms.foldl (fun moveMap pokemonMove =>
          match (validDetails e pokemonMove).head? with
          | some detail => jsMapSet moveMap pokemonMove.moveName
              ⟨detail.moveLearnMethod, detail.levelLearnedAt⟩
          | none => moveMap) acc,
        q ∈ acc ∨ ∃ mv ∈ ms, ∃ d, (validDetails e mv).head? = some d
          ∧ q = (mv.moveName, ⟨d.moveLearnMethod, d.levelLearnedAt⟩) := by
  intro ms
  induction ms with
  | nil => intro acc q hq; exact Or.inl hq
  | cons mv rest ih =>
    intro acc q hq
    simp only [List.foldl_cons] at hq
    have hstep : ∀ (acc' : List (String × LearnInfo)) (q' : String × LearnInfo),
        q' ∈ (match (validDetails e mv).head? with
          | some detail => jsMapSet acc' mv.moveName
              ⟨detail.moveLearnMethod, detail.levelLearnedAt⟩
          | none => acc') →
        (∃ d, (validDetails e mv).head? = some d
          ∧ q' = (mv.moveName, ⟨d.moveLearnMethod, d.levelLearnedAt⟩)) ∨ q' ∈ acc' := by
      intro acc' q' hq'
      cases hh : (validDetails e mv).head? with
      | none =>
        rw [hh] at hq'
        exact Or.inr hq'
      | some detail =>
        rw [hh] at hq'
        rcases jsMapSet_mem_cases acc' mv.moveName
            ⟨detail.moveLearnMethod, detail.levelLearnedAt⟩ q' hq' with hnew | hold
        · exact Or.inl ⟨detail, rfl, hnew⟩
        · exact Or.inr hold
    rcases ih _ q hq with hin | ⟨mv', hmv', d, hd, hq'⟩
    · rcases hstep acc q hin with ⟨d, hd, hq'⟩ | hin'
      · exact Or.inr ⟨mv, by simp, d, hd, hq'⟩
      · exact Or.inl hin'
    · exact Or.inr ⟨mv', by simp [hmv'], d, hd, hq'⟩

/-- Every entry of `moveMap` stems from some move of the entity. -/
theorem buildMoveMap_mem (p : Pokemon) (e : Nat) :
    ∀ q ∈ buildMoveMap p e, ∃ mv ∈ p.moves, ∃ d, (validDetails e mv).head? = some d
      ∧ q = (mv.moveName, ⟨d.moveLearnMethod, d.levelLearnedAt⟩) := by
  intro q hq
  rcases buildMoveMap_fold_mem e p.moves [] q hq with h | h
  · simp at h
  · exact h

/-- With pairwise-distinct move names, the `moveMap` is the in-order list
of one entry per move with a non-empty `validDetails`. -/
theorem buildMoveMap_eq (p : Pokemon) (e : Nat)
    (hnd : (p.moves.map (·.moveName)).Nodup) :
    buildMoveMap p e = p.moves.filterMap (fun mv =>
      ((validDetails e mv).head?).map
        (fun d => (mv.moveName, ⟨d.moveLearnMethod, d.levelLearnedAt⟩))) := by
  unfold buildMoveMap
  suffices h : ∀ (ms : List PokemonMoveEntry) (acc : List (String × LearnInfo)),
      (ms.map (·.moveName)).Nodup →
      (∀ k ∈ acc.map Prod.fst, k ∉ ms.map (·.moveName)) →
      ms.foldl (fun moveMap pokemonMove =>
          match (validDetails e pokemonMove).head? with
          | some detail => jsMapSet moveMap pokemonMove.moveName
              ⟨detail.moveLearnMethod, detail.levelLearnedAt⟩
          | none => moveMap) acc
        = acc ++ ms.filterMap (fun mv =>
            ((validDetails e mv).head?).map
              (fun d => (mv.moveName, ⟨d.moveLearnMethod, d.levelLearnedAt⟩))) by
    simpa using h p.moves [] hnd (by simp)
  intro ms
  induction ms with
  | nil => intro acc _ _; simp
  | cons mv rest ih =>
    intro acc hnd2 hdisj
    simp only [List.foldl_cons]
    cases hh : (validDetails e mv).head? with
    | none =>
      dsimp only
      rw [ih acc ((List.nodup_cons.mp (by simpa using hnd2)).2)
        (fun k hk => by
          have := hdisj k hk
          simp only [List.map_cons, List.mem_cons, not_or] at this
          exact this.2)]
      simp [hh]
    | some detail =>
      dsimp only
      have hfresh : mv.moveName ∉ acc.map Prod.fst := by
        intro hmem
        have := hdisj mv.moveName hmem
        simp at this
      rw [jsMapSet_of_not_mem acc mv.moveName _ hfresh]
      rw [ih (acc ++ [(mv.moveName, (⟨detail.moveLearnMethod, detail.levelLearnedAt⟩ : LearnInfo))])
        ((List.nodup_cons.mp (by simpa using hnd2)).2)
        (fun k hk => by
          simp only [List.map_append, List.mem_append, List.map_cons, List.map_nil,
            List.mem_singleton] at hk
          rcases hk with hk | hk
          · have := hdisj k hk
            simp only [List.map_cons, List.mem_cons, not_or] at this
            exact this.2
          · rw [hk]
            exact (List.nodup_cons.mp (by simpa using hnd2)).1)]
      simp [hh]

/-- Distinct move names make the name an injective key on the move list. -/
theorem moveName_inj (p : Pokemon) (hnd : (p.moves.map (·.moveName)).Nodup)
    {a b : PokemonMoveEntry} (ha : a ∈ p.moves) (hb : b ∈ p.moves)
    (hab : a.moveName = b.moveName) : a = b := by
  by_contra hne
  have hpw : p.moves.Pairwise (fun x y => x.moveName ≠ y.moveName) :=
    List.pairwise_map.mp hnd
  exact (hpw.forall (fun x y h => (h ·.symm)) ha hb hne) hab

/-- Looking the `moveMap` up at a move's own name yields that move's first
valid detail (with distinct move names). -/
theorem buildMoveMap_lookup (p : Pokemon) (e : Nat)
    (hnd : (p.moves.map (·.moveName)).Nodup) (mv : PokemonMoveEntry)
    (hmv : mv ∈ p.moves) (info : LearnInfo)
    (hin : (mv.moveName, info) ∈ buildMoveMap p e) :
    ∃ d, (validDetails e mv).head? = some d
      ∧ info = ⟨d.moveLearnMethod, d.levelLearnedAt⟩ := by
  rw [buildMoveMap_eq p e hnd] at hin
  rcases List.mem_filterMap.mp hin with ⟨mv', hmv', heq⟩
  rcases Option.map_eq_some'.mp heq with ⟨d, hd, hpair⟩
  have hname : mv'.moveName = mv.moveName := congrArg Prod.fst hpair
  have : mv' = mv := moveName_inj p hnd hmv' hmv hname
  subst this
  exact ⟨d, hd, (congrArg Prod.snd hpair).symm⟩

/-- A move none of whose learn records survives the filter contributes no
entry to the resolver's output (with distinct move names and a fetcher that
echoes the requested name). -/
theorem getMovesAt_name_not_mem (fetchMove : String → Move) (p : Pokemon) (e : Nat)
    (hnd : (p.moves.map (·.moveName)).Nodup)
    (hfetch : ∀ s, (fetchMove s).name = s) (mv : PokemonMoveEntry)
    (hmv : mv ∈ p.moves) (hnil : survivingDetails e mv = []) :
    ∀ md ∈ getMovesAt fetchMove p e, md.name ≠ mv.moveName := by
  intro md hmd heq
  simp only [getMovesAt] at hmd
  have hmem : md ∈ (buildMoveMap p e).map
      (fun entry => toMoveData (fetchMove entry.1) entry.2) :=
    (List.mergeSort_perm _ _).mem_iff.mp hmd
  rcases List.mem_map.mp hmem with ⟨⟨k, info⟩, hk, hmdeq⟩
  have hname : md.name = k := by
    rw [← hmdeq]
    exact hfetch k
  have hkname : k = mv.moveName := by rw [← hname, heq]
  subst hkname
  rcases buildMoveMap_lookup p e hnd mv hmv info hk with ⟨d, hd, -⟩
  have : validDetails e mv = [] := (validDetails_eq_nil_iff e mv).mpr hnil
  rw [this] at hd
  simp at hd

/-- C3: the move resolver keeps, for each move, only learn records whose
release maps to a generation within the effective generation `e` (unknown
release identifiers mapping to 9); the record selected into the move map is
a surviving record of maximal release generation; a move survives into the
map exactly when some record survives the filter, and a move with no
surviving record contributes no entry to the output. -/
theorem c3_move_selection (fetchMove : String → Move) (p : Pokemon) (e : Nat)
    (hnd : (p.moves.map (·.moveName)).Nodup)
    (hfetch : ∀ s, (fetchMove s).name = s) :
    (∀ s, jsMapGet VERSION_GROUP_TO_GENERATION s = none →
        getGenerationFromVersionGroup s = 9)
      ∧ ∀ mv ∈ p.moves,
          (∀ info, (mv.moveName, info) ∈ buildMoveMap p e →
            ∃ d ∈ survivingDetails e mv,
              info = ⟨d.moveLearnMethod, d.levelLearnedAt⟩
                ∧ getGenerationFromVersionGroup d.versionGroup ≤ e
                ∧ ∀ d' ∈ survivingDetails e mv,
                    getGenerationFromVersionGroup d'.versionGroup
                      ≤ getGenerationFromVersionGroup d.versionGroup)
            ∧ (survivingDetails e mv ≠ [] →
                ∃ info, (mv.moveName, info) ∈ buildMoveMap p e)
            ∧ (survivingDetails e mv = [] →
                ∀ md ∈ getMovesAt fetchMove p e, md.name ≠ mv.moveName) := by
  constructor
  · intro s h
    unfold getGenerationFromVersionGroup
    rw [h]
    rfl
  · intro mv hmv
    refine ⟨?_, ?_, ?_⟩
    · intro info hin
      rcases buildMoveMap_lookup p e hnd mv hmv info hin with ⟨d, hd, hinfo⟩
      rcases validDetails_head e mv d hd with ⟨hdmem, hdmax⟩
      have hgen : getGenerationFromVersionGroup d.versionGroup ≤ e := by
        have := List.of_mem_filter hdmem
        simp only [Bool.and_eq_true, decide_eq_true_eq] at this
        exact this.2
      exact ⟨d, hdmem, hinfo, hgen, hdmax⟩
    · intro hne
      have hvne : validDetails e mv ≠ [] := fun h =>
        hne ((validDetails_eq_nil_iff e mv).mp h)
      rcases List.exists_cons_of_ne_nil hvne with ⟨d, t, hdt⟩
      refine ⟨⟨d.moveLearnMethod, d.levelLearnedAt⟩, ?_⟩
      rw [buildMoveMap_eq p e hnd]
      exact List.mem_filterMap.mpr ⟨mv, hmv, by rw [hdt]; rfl⟩
    · exact getMovesAt_name_not_mem fetchMove p e hnd hfetch mv hmv

/-- C10: every entry of the resolver's output uses one of the four main
learn methods; a move all of whose learn records use another method never
appears in the output, whatever the effective generation. -/
theorem c10_main_method_filter (fetchMove : String → Move) (p : Pokemon) (e : Nat)
    (hnd : (p.moves.map (·.moveName)).Nodup)
    (hfetch : ∀ s, (fetchMove s).name = s) :
    (∀ md ∈ getMovesAt fetchMove p e, md.learnMethod ∈ mainMethods)
      ∧ ∀ mv ∈ p.moves,
          (∀ d ∈ mv.versionGroupDetails, d.moveLearnMethod ∉ mainMethods) →
          ∀ md ∈ getMovesAt fetchMove p e, md.name ≠ mv.moveName := by
  constructor
  · intro md hmd
    simp only [getMovesAt] at hmd
    have hmem : md ∈ (buildMoveMap p e).map
        (fun entry => toMoveData (fetchMove entry.1) entry.2) :=
      (List.mergeSort_perm _ _).mem_iff.mp hmd
    rcases List.mem_map.mp hmem with ⟨⟨k, info⟩, hk, hmdeq⟩
    rcases buildMoveMap_mem p e ⟨k, info⟩ hk with ⟨mv, hmv, d, hd, hpair⟩
    have hmethod : md.learnMethod = d.moveLearnMethod := by
      rw [← hmdeq]
      have : info = ⟨d.moveLearnMethod, d.levelLearnedAt⟩ := congrArg Prod.snd hpair
      rw [this]
      rfl
    rcases validDetails_head e mv d hd with ⟨hdmem, -⟩
    have := List.of_mem_filter hdmem
    simp only [Bool.and_eq_true] at this
    rw [hmethod]
    have hcontains := this.1
    simpa [List.contains, List.elem_iff] using hcontains
  · intro mv hmv hall
    apply getMovesAt_name_not_mem fetchMove p e hnd hfetch mv hmv
    unfold survivingDetails
    rw [List.filter_eq_nil_iff]
    intro d hd
    simp only [Bool.and_eq_true, decide_eq_true_eq, not_and]
    intro hc
    exact absurd (by simpa [List.contains, List.elem_iff] using hc) (hall d hd)

/-- The source's rank (`machine`/`egg`/`tutor`/other → 0/1/2/99) and the
spec's display rank (… → 0/1/2/3) take matching values. -/
theorem rank_pairs (m : String) :
    (methodOrderLookup m = 0 ∧ displayMethodRank m = 0)
      ∨ (methodOrderLookup m = 1 ∧ displayMethodRank m = 1)
      ∨ (methodOrderLookup m = 2 ∧ displayMethodRank m = 2)
      ∨ (methodOrderLookup m = 99 ∧ displayMethodRank m = 3) := by
  unfold methodOrderLookup displayMethodRank
  by_cases h1 : m = "machine" <;> by_cases h2 : m = "egg" <;>
    by_cases h3 : m = "tutor" <;> simp [h1, h2, h3]

/-- Characterization of the comparator's nonpositive values. -/
theorem moveCompare_nonpos_iff (a b : MoveData) :
    moveCompare a b ≤ 0 ↔
      (a.learnMethod = "level-up" ∧ b.learnMethod = "level-up"
        ∧ a.levelLearned.getD 0 ≤ b.levelLearned.getD 0)
      ∨ (a.learnMethod = "level-up" ∧ b.learnMethod ≠ "level-up")
      ∨ (a.learnMethod ≠ "level-up" ∧ b.learnMethod ≠ "level-up"
        ∧ (methodOrderLookup a.learnMethod < methodOrderLookup b.learnMethod
          ∨ (methodOrderLookup a.learnMethod = methodOrderLookup b.learnMethod
            ∧ a.name ≤ b.name))) := by
  unfold moveCompare
  by_cases h1 : a.learnMethod = "level-up" ∧ b.learnMethod = "level-up"
  · rw [if_pos h1]
    constructor
    · intro h
      exact Or.inl ⟨h1.1, h1.2, by omega⟩
    · rintro (⟨-, -, h⟩ | ⟨-, hb⟩ | ⟨ha, -, -⟩)
      · omega
      · exact absurd h1.2 hb
      · exact absurd h1.1 ha
  · rw [if_neg h1]
    by_cases h2 : a.learnMethod = "level-up"
    · have hb : b.learnMethod ≠ "level-up" := fun hb => h1 ⟨h2, hb⟩
      rw [if_pos h2]
      exact ⟨fun _ => Or.inr (Or.inl ⟨h2, hb⟩), fun _ => by omega⟩
    · rw [if_neg h2]
      by_cases h3 : b.learnMethod = "level-up"
      · rw [if_pos h3]
        constructor
        · intro h
          exact absurd h (by omega)
        · rintro (⟨ha, -, -⟩ | ⟨ha, -⟩ | ⟨-, hb, -⟩)
          · exact absurd ha h2
          · exact absurd ha h2
          · exact absurd h3 hb
      · rw [if_neg h3]
        by_cases h4 : methodOrderLookup a.learnMethod ≠ methodOrderLookup b.learnMethod
        · rw [if_pos h4]
          constructor
          · intro h
            exact Or.inr (Or.inr ⟨h2, h3, Or.inl (lt_of_le_of_ne (by omega) h4)⟩)
          · rintro (⟨ha, -, -⟩ | ⟨ha, -⟩ | ⟨-, -, h | ⟨heq, -⟩⟩)
            · exact absurd ha h2
            · exact absurd ha h2
            · omega
            · exact absurd heq h4
        · rw [if_neg h4]
          push_neg at h4
          unfold localeCompare
          by_cases h5 : a.name < b.name
          · rw [if_pos h5]
            exact ⟨fun _ => Or.inr (Or.inr ⟨h2, h3, Or.inr ⟨h4, le_of_lt h5⟩⟩),
              fun _ => by omega⟩
          · rw [if_neg h5]
            by_cases h6 : a.name = b.name
            · rw [if_pos h6]
              exact ⟨fun _ => Or.inr (Or.inr ⟨h2, h3, Or.inr ⟨h4, le_of_eq h6⟩⟩),
                fun _ => by omega⟩
            · rw [if_neg h6]
              constructor
              · intro h
                exact absurd h (by omega)
              · rintro (⟨ha, -, -⟩ | ⟨ha, -⟩ | ⟨-, -, h | ⟨-, hn⟩⟩)
                · exact absurd ha h2
                · exact absurd ha h2
                · omega
                · exact absurd (lt_of_le_of_ne hn h6) h5

/-- The comparator's nonpositive relation is total. -/
theorem moveLe_total (a b : MoveData) :
    (decide (moveCompare a b ≤ 0) || decide (moveCompare b a ≤ 0)) = true := by
  simp only [Bool.or_eq_true, decide_eq_true_eq, moveCompare_nonpos_iff]
  by_cases h1 : a.learnMethod = "level-up" <;> by_cases h2 : b.learnMethod = "level-up"
  · rcases Nat.le_total (a.levelLearned.getD 0) (b.levelLearned.getD 0) with h | h
    · exact Or.inl (Or.inl ⟨h1, h2, h⟩)
    · exact Or.inr (Or.inl ⟨h2, h1, h⟩)
  · exact Or.inl (Or.inr (Or.inl ⟨h1, h2⟩))
  · exact Or.inr (Or.inr (Or.inl ⟨h2, h1⟩))
  · rcases lt_trichotomy (methodOrderLookup a.learnMethod)
        (methodOrderLookup b.learnMethod) with h | h | h
    · exact Or.inl (Or.inr (Or.inr ⟨h1, h2, Or.inl h⟩))
    · rcases le_total a.name b.name with hn | hn
      · exact Or.inl (Or.inr (Or.inr ⟨h1, h2, Or.inr ⟨h, hn⟩⟩))
      · exact Or.inr (Or.inr (Or.inr ⟨h2, h1, Or.inr ⟨h.symm, hn⟩⟩))
    · exact Or.inr (Or.inr (Or.inr ⟨h2, h1, Or.inl h⟩))

/-- The comparator's nonpositive relation is transitive. -/
theorem moveLe_trans (a b c : MoveData)
    (hab : decide (moveCompare a b ≤ 0) = true)
    (hbc : decide (moveCompare b c ≤ 0) = true) :
    decide (moveCompare a c ≤ 0) = true := by
  simp only [decide_eq_true_eq, moveCompare_nonpos_iff] at hab hbc ⊢
  rcases hab with ⟨ha, hb, hl1⟩ | ⟨ha, hb⟩ | ⟨ha, hb, hr1⟩ <;>
    rcases hbc with ⟨hb', hc, hl2⟩ | ⟨hb', hc⟩ | ⟨hb', hc, hr2⟩
  · exact Or.inl ⟨ha, hc, le_trans hl1 hl2⟩
  · exact Or.inr (Or.inl ⟨ha, hc⟩)
  · exact absurd hb hb'
  · exact absurd hb' hb
  · exact absurd hb' hb
  · exact Or.inr (Or.inl ⟨ha, hc⟩)
  · exact absurd hb' hb
  · exact absurd hb' hb
  · refine Or.inr (Or.inr ⟨ha, hc, ?_⟩)
    rcases hr1 with h1 | ⟨h1, hn1⟩ <;> rcases hr2 with h2 | ⟨h2, hn2⟩
    · exact Or.inl (lt_trans h1 h2)
    · exact Or.inl (h2 ▸ h1)
    · exact Or.inl (h1 ▸ h2)
    · exact Or.inr ⟨h1.trans h2, le_trans hn1 hn2⟩

/-- C7: the resolver's output is sorted by the display order: level-up
moves first in ascending level order, then machine, egg, tutor groups,
alphabetical by name within a non-level-up group. -/
theorem c7_move_sort_order (fetchMove : String → Move) (p : Pokemon) (e : Nat) :
    (getMovesAt fetchMove p e).Pairwise displayMoveOrder := by
  simp only [getMovesAt]
  have hsorted := @List.sorted_mergeSort _ (fun a b => decide (moveCompare a b ≤ 0))
    moveLe_trans moveLe_total
    ((buildMoveMap p e).map (fun entry => toMoveData (fetchMove entry.1) entry.2))
  refine hsorted.imp ?_
  intro a b hab
  have h := (moveCompare_nonpos_iff a b).mp (by simpa using hab)
  rcases h with ⟨ha, hb, hl⟩ | ⟨ha, hb⟩ | ⟨ha, hb, hr⟩
  · exact Or.inl ⟨ha, hb, hl⟩
  · exact Or.inr (Or.inl ⟨ha, hb⟩)
  · refine Or.inr (Or.inr ⟨ha, hb, ?_⟩)
    rcases hr with h | ⟨h, hn⟩
    · refine Or.inl ?_
      rcases rank_pairs a.learnMethod with ⟨h1, h2⟩ | ⟨h1, h2⟩ | ⟨h1, h2⟩ | ⟨h1, h2⟩ <;>
        rcases rank_pairs b.learnMethod with ⟨h3, h4⟩ | ⟨h3, h4⟩ | ⟨h3, h4⟩ | ⟨h3, h4⟩ <;>
        rw [h1, h3] at h <;> rw [h2, h4] <;> omega
    · refine Or.inr ⟨?_, hn⟩
      rcases rank_pairs a.learnMethod with ⟨h1, h2⟩ | ⟨h1, h2⟩ | ⟨h1, h2⟩ | ⟨h1, h2⟩ <;>
        rcases rank_pairs b.learnMethod with ⟨h3, h4⟩ | ⟨h3, h4⟩ | ⟨h3, h4⟩ | ⟨h3, h4⟩ <;>
        rw [h1, h3] at h <;> rw [h2, h4] <;> omega

/-- C3 witness: a concrete entity at effective generation 9 — `tackle`
(two level-up records) is selected, the unknown release id maps to 9, and
`othermove` (only a `transfer` record) is excluded. -/
theorem c3_move_selection_witness :
    getGenerationFromVersionGroup "not-a-version-group" = 9
      ∧ (∃ info, ("tackle", info) ∈ buildMoveMap
          ⟨1, "bulbasaur", [⟨1, "grass"⟩], [], [],
            [⟨"tackle", [⟨"level-up", "red-blue", 10⟩, ⟨"level-up", "sword-shield", 8⟩]⟩,
             ⟨"othermove", [⟨"transfer", "scarlet-violet", 0⟩]⟩]⟩ 9)
      ∧ (∀ md ∈ getMovesAt (fun s => ⟨s, "normal", "physical", none, none, 10, []⟩)
          ⟨1, "bulbasaur", [⟨1, "grass"⟩], [], [],
            [⟨"tackle", [⟨"level-up", "red-blue", 10⟩, ⟨"level-up", "sword-shield", 8⟩]⟩,
             ⟨"othermove", [⟨"transfer", "scarlet-violet", 0⟩]⟩]⟩ 9,
          md.name ≠ "othermove") :=
  ⟨c3_move_selection (fun s => ⟨s, "normal", "physical", none, none, 10, []⟩)
      ⟨1, "bulbasaur", [⟨1, "grass"⟩], [], [],
        [⟨"tackle", [⟨"level-up", "red-blue", 10⟩, ⟨"level-up", "sword-shield", 8⟩]⟩,
         ⟨"othermove", [⟨"transfer", "scarlet-violet", 0⟩]⟩]⟩ 9
      (by decide) (fun s => rfl) |>.1 "not-a-version-group" (by decide),
   (c3_move_selection (fun s => ⟨s, "normal", "physical", none, none, 10, []⟩)
      ⟨1, "bulbasaur", [⟨1, "grass"⟩], [], [],
        [⟨"tackle", [⟨"level-up", "red-blue", 10⟩, ⟨"level-up", "sword-shield", 8⟩]⟩,
         ⟨"othermove", [⟨"transfer", "scarlet-violet", 0⟩]⟩]⟩ 9
      (by decide) (fun s => rfl) |>.2
      ⟨"tackle", [⟨"level-up", "red-blue", 10⟩, ⟨"level-up", "sword-shield", 8⟩]⟩
      (by decide)).2.1 (by decide),
   (c3_move_selection (fun s => ⟨s, "normal", "physical", none, none, 10, []⟩)
      ⟨1, "bulbasaur", [⟨1, "grass"⟩], [], [],
        [⟨"tackle", [⟨"level-up", "red-blue", 10⟩, ⟨"level-up", "sword-shield", 8⟩]⟩,
         ⟨"othermove", [⟨"transfer", "scarlet-violet", 0⟩]⟩]⟩ 9
      (by decide) (fun s => rfl) |>.2
      ⟨"othermove", [⟨"transfer", "scarlet-violet", 0⟩]⟩
      (by decide)).2.2 (by decide)⟩

/-- C10 witness: on the same concrete entity, every output entry uses a
main method and no output entry is named `othermove`. -/
theorem c10_main_method_filter_witness :
    (∀ md ∈ getMovesAt (fun s => ⟨s, "normal", "physical", none, none, 10, []⟩)
        ⟨1, "bulbasaur", [⟨1, "grass"⟩], [], [],
          [⟨"tackle", [⟨"level-up", "red-blue", 10⟩, ⟨"level-up", "sword-shield", 8⟩]⟩,
           ⟨"othermove", [⟨"transfer", "scarlet-violet", 0⟩]⟩]⟩ 9,
        md.learnMethod ∈ mainMethods)
      ∧ (∀ md ∈ getMovesAt (fun s => ⟨s, "normal", "physical", none, none, 10, []⟩)
          ⟨1, "bulbasaur", [⟨1, "grass"⟩], [], [],
            [⟨"tackle", [⟨"level-up", "red-blue", 10⟩, ⟨"level-up", "sword-shield", 8⟩]⟩,
             ⟨"othermove", [⟨"transfer", "scarlet-violet", 0⟩]⟩]⟩ 9,
          md.name ≠ "othermove") :=
  ⟨(c10_main_method_filter (fun s => ⟨s, "normal", "physical", none, none, 10, []⟩)
      ⟨1, "bulbasaur", [⟨1, "grass"⟩], [], [],
        [⟨"tackle", [⟨"level-up", "red-blue", 10⟩, ⟨"level-up", "sword-shield", 8⟩]⟩,
         ⟨"othermove", [⟨"transfer", "scarlet-violet", 0⟩]⟩]⟩ 9
      (by decide) (fun s => rfl)).1,
   (c10_main_method_filter (fun s => ⟨s, "normal", "physical", none, none, 10, []⟩)
      ⟨1, "bulbasaur", [⟨1, "grass"⟩], [], [],
        [⟨"tackle", [⟨"level-up", "red-blue", 10⟩, ⟨"level-up", "sword-shield", 8⟩]⟩,
         ⟨"othermove", [⟨"transfer", "scarlet-violet", 0⟩]⟩]⟩ 9
      (by decide) (fun s => rfl)).2
      ⟨"othermove", [⟨"transfer", "scarlet-violet", 0⟩]⟩
      (by decide) (by decide)⟩

end Poclidex
